import Mathlib

/-!
Verification of the algorithmic core of the three command-line tools
(`computeStatistics.py`, `convertNumbers.py`, `wordCount.py` and their
snake_case near-duplicates): parsers, descriptive statistics, the
arbitrary-base converter and the word aggregator, embedded shallowly.
-/

namespace A42

/-! ## Base converter (`convertNumbers.py`) -/

/-- The constant `HEX_DIGITS = "0123456789ABCDEF"`. -/
def HEX_DIGITS : List Char :=
  ['0', '1', '2', '3', '4', '5', '6', '7', '8', '9', 'A', 'B', 'C', 'D', 'E', 'F']

/-- Digit character for a digit value, i.e. `HEX_DIGITS[d]`. -/
def hexChar (d : Nat) : Char := HEX_DIGITS.getD d ' '

/-- The digit-extraction loop of `to_base`:
`while value > 0: digits.append(HEX_DIGITS[value % base]); value //= base`,
recorded as the list of digit values least-significant first.  The loop is
only reached with `2 <= base <= 16`, hence the `1 < base` guard. -/
def toDigitsRev (base : Nat) (v : Nat) : List Nat :=
  if h : 1 < base ∧ 0 < v then
    (v % base) :: toDigitsRev base (v / base)
  else []
termination_by v
decreasing_by exact Nat.div_lt_self h.2 h.1

/-- `to_base(n, base)` from `convertNumbers.py`: raises (here: `none`) when
`base` is outside `[2, 16]`; returns `"0"` for `n = 0`; otherwise emits an
optional `"-"` sign followed by the extracted digits reversed into
most-significant-first order. -/
def to_base (n : Int) (base : Nat) : Option String :=
  if base < 2 ∨ 16 < base then none
  else if n = 0 then some "0"
  else
    let sign : String := if n < 0 then "-" else ""
    let digits : List Nat := toDigitsRev base n.natAbs
    some (sign ++ String.mk (digits.reverse.map hexChar))

/-- Value of a hex-digit character: its index in `HEX_DIGITS`
(`'0'`–`'9'` mean 0–9, `'A'`–`'F'` mean 10–15). -/
def digitVal (c : Char) : Option Nat := HEX_DIGITS.indexOf? c

/-- Read a most-significant-first digit string in the given base,
rejecting characters that are not digits of that base. -/
def readDigitsAux (base : Nat) : Nat → List Char → Option Nat
  | acc, [] => some acc
  | acc, c :: cs =>
    match digitVal c with
    | none => none
    | some d => if d < base then readDigitsAux base (acc * base + d) cs else none

/-- Read a non-empty digit string in the given base. -/
def readDigits (base : Nat) (cs : List Char) : Option Nat :=
  if cs.isEmpty then none else readDigitsAux base 0 cs

/-- Spec-side interpreter of a digit string as a base-`base` numeral:
a leading `"-"` means negation, the remaining characters are
most-significant-first digits. -/
def fromBase (base : Nat) (s : String) : Option Int :=
  if s.data.head? = some '-' then
    (readDigits base s.data.tail).map (fun v => -(Int.ofNat v))
  else
    (readDigits base s.data).map (fun v => Int.ofNat v)

theorem toDigitsRev_eq (base v : Nat) :
    toDigitsRev base v =
      if 1 < base ∧ 0 < v then (v % base) :: toDigitsRev base (v / base) else [] := by
  rw [toDigitsRev]
  exact dite_eq_ite

theorem toDigitsRev_of_pos {base v : Nat} (hb : 1 < base) (hv : 0 < v) :
    toDigitsRev base v = (v % base) :: toDigitsRev base (v / base) := by
  rw [toDigitsRev_eq, if_pos ⟨hb, hv⟩]

theorem toDigitsRev_zero (base : Nat) : toDigitsRev base 0 = [] := by
  rw [toDigitsRev_eq]
  simp

/-- Every extracted digit is smaller than the base. -/
theorem toDigitsRev_lt (base : Nat) (hb : 1 < base) :
    ∀ v : Nat, ∀ d ∈ toDigitsRev base v, d < base := by
  intro v
  induction v using Nat.strong_induction_on with
  | _ v ih =>
    intro d hd
    rw [toDigitsRev_eq] at hd
    by_cases hv : 0 < v
    · rw [if_pos ⟨hb, hv⟩, List.mem_cons] at hd
      rcases hd with hd | hd
      · subst hd; exact Nat.mod_lt v (by omega)
      · exact ih (v / base) (Nat.div_lt_self hv hb) d hd
    · rw [if_neg (by intro h; exact hv h.2)] at hd
      exact absurd hd (List.not_mem_nil d)

theorem toDigitsRev_ne_nil {base v : Nat} (hb : 1 < base) (hv : 0 < v) :
    toDigitsRev base v ≠ [] := by
  rw [toDigitsRev_of_pos hb hv]
  exact List.cons_ne_nil _ _

/-- Folding the reversed digit list most-significant-first recovers the value. -/
theorem toDigitsRev_foldl (base : Nat) (hb : 1 < base) :
    ∀ v a : Nat,
      ((toDigitsRev base v).reverse).foldl (fun acc d => acc * base + d) a =
        a * base ^ (toDigitsRev base v).length + v := by
  intro v
  induction v using Nat.strong_induction_on with
  | _ v ih =>
    intro a
    by_cases hv : 0 < v
    · rw [toDigitsRev_of_pos hb hv]
      simp only [List.reverse_cons, List.foldl_append, List.foldl_cons, List.foldl_nil,
        List.length_cons]
      rw [ih (v / base) (Nat.div_lt_self hv hb) a]
      have h2 : v / base * base + v % base = v := by
        rw [Nat.mul_comm (v / base) base]
        exact Nat.div_add_mod v base
      rw [pow_succ, add_mul, add_assoc, h2, ← mul_assoc]
    · have : v = 0 := Nat.eq_zero_of_not_pos hv
      subst this
      rw [toDigitsRev_zero]
      simp

theorem hexChar_digitVal : ∀ d : Nat, d < 16 → digitVal (hexChar d) = some d := by decide

theorem hexChar_ne_dash : ∀ d : Nat, d < 16 → hexChar d ≠ '-' := by decide

theorem readDigitsAux_cons (base a : Nat) (c : Char) (cs : List Char) :
    readDigitsAux base a (c :: cs) =
      match digitVal c with
      | none => none
      | some d => if d < base then readDigitsAux base (a * base + d) cs else none := rfl

theorem readDigitsAux_map (base : Nat) (hb16 : base ≤ 16) :
    ∀ (l : List Nat) (a : Nat), (∀ d ∈ l, d < base) →
      readDigitsAux base a (l.map hexChar) =
        some (l.foldl (fun acc d => acc * base + d) a) := by
  intro l
  induction l with
  | nil => intro a _; rfl
  | cons d l ih =>
    intro a h
    have hd : d < base := h d (List.mem_cons_self d l)
    have h16 : d < 16 := lt_of_lt_of_le hd hb16
    rw [List.map_cons, readDigitsAux_cons, hexChar_digitVal d h16]
    dsimp only
    rw [if_pos hd, List.foldl_cons]
    exact ih (a * base + d) (fun x hx => h x (List.mem_cons_of_mem d hx))

/-- Reading back the digit characters produced for a positive value recovers it. -/
theorem readDigits_toDigits (base : Nat) (hb2 : 2 ≤ base) (hb16 : base ≤ 16)
    (v : Nat) (hv : 0 < v) :
    readDigits base ((toDigitsRev base v).reverse.map hexChar) = some v := by
  have hb1 : 1 < base := hb2
  have hne : toDigitsRev base v ≠ [] := toDigitsRev_ne_nil hb1 hv
  have hne2 : (toDigitsRev base v).reverse.map hexChar ≠ [] := by
    simpa using hne
  rw [readDigits, if_neg (by simpa [List.isEmpty_iff] using hne2)]
  rw [readDigitsAux_map base hb16 _ 0
    (fun d hd => toDigitsRev_lt base hb1 v d (List.mem_reverse.mp hd))]
  rw [toDigitsRev_foldl base hb1 v 0]
  simp

theorem string_dash_append (cs : List Char) :
    ("-" ++ String.mk cs) = String.mk ('-' :: cs) := by
  have h : ("-" ++ String.mk cs).data = '-' :: cs := by simp [String.data_append]
  cases hx : ("-" ++ String.mk cs) with
  | mk d =>
    rw [hx] at h
    exact congrArg String.mk h

theorem string_nil_append (cs : List Char) : ("" ++ String.mk cs) = String.mk cs := by
  have h : ("" ++ String.mk cs).data = cs := by simp [String.data_append]
  cases hx : ("" ++ String.mk cs) with
  | mk d =>
    rw [hx] at h
    exact congrArg String.mk h

theorem fromBase_dash (base : Nat) (cs : List Char) :
    fromBase base (String.mk ('-' :: cs)) =
      (readDigits base cs).map (fun v => -(Int.ofNat v)) := by
  rw [fromBase]
  simp

theorem fromBase_nondash (base : Nat) (c : Char) (hc : c ≠ '-') (cs : List Char) :
    fromBase base (String.mk (c :: cs)) =
      (readDigits base (c :: cs)).map (fun v => Int.ofNat v) := by
  rw [fromBase]
  simp [hc]

/-- General round trip: interpreting `to_base n base` back in that base
reproduces `n`, for every base in `[2, 16]`. -/
theorem to_base_fromBase (base : Nat) (hb2 : 2 ≤ base) (hb16 : base ≤ 16) (n : Int) :
    (to_base n base).bind (fromBase base) = some n := by
  have hb1 : 1 < base := hb2
  have hguard : ¬ (base < 2 ∨ 16 < base) := by omega
  by_cases h0 : n = 0
  · subst h0
    have hbase0 : to_base 0 base = some "0" := by
      rw [to_base, if_neg hguard]
      exact if_pos rfl
    rw [hbase0, Option.some_bind]
    have h00 : "0" = String.mk ['0'] := rfl
    rw [h00, fromBase_nondash base '0' (by decide) []]
    rw [readDigits, if_neg (by decide)]
    rw [readDigitsAux_cons]
    have h0v : digitVal '0' = some 0 := rfl
    rw [h0v]
    dsimp only
    rw [if_pos (by omega : 0 < base)]
    simp [readDigitsAux]
  · have hvpos : 0 < n.natAbs := Int.natAbs_pos.mpr h0
    have hnerev : (toDigitsRev base n.natAbs).reverse ≠ [] := by
      simpa using toDigitsRev_ne_nil hb1 hvpos
    obtain ⟨d, rest, hdr⟩ := List.exists_cons_of_ne_nil hnerev
    have hdmem : d ∈ toDigitsRev base n.natAbs := by
      rw [← List.mem_reverse, hdr]; exact List.mem_cons_self d rest
    have hd16 : d < 16 :=
      lt_of_lt_of_le (toDigitsRev_lt base hb1 n.natAbs d hdmem) hb16
    have hread : readDigits base ((toDigitsRev base n.natAbs).reverse.map hexChar) =
        some n.natAbs := readDigits_toDigits base hb2 hb16 n.natAbs hvpos
    simp only [to_base, if_neg hguard, if_neg h0, Option.some_bind]
    by_cases hneg : n < 0
    · rw [if_pos hneg, string_dash_append, fromBase_dash, hread]
      rw [Option.map_some']
      congr 1
      simp only [Int.ofNat_eq_natCast]
      omega
    · rw [if_neg hneg, string_nil_append, hdr, List.map_cons,
        fromBase_nondash base (hexChar d) (hexChar_ne_dash d hd16) _,
        ← List.map_cons, ← hdr, hread]
      rw [Option.map_some']
      congr 1
      simp only [Int.ofNat_eq_natCast]
      omega

/-- C2: for every integer `n` and each base `b` in `{2, 16}`, interpreting the
digit string `to_base(n, b)` back as a base-`b` numeral (a leading `"-"`
meaning negation, digits `0`-`9` and `A`-`F` meaning values 0-15, most
significant digit first) reproduces `n`. -/
theorem C2_to_base_roundtrip (n : Int) :
    (to_base n 2).bind (fromBase 2) = some n ∧
    (to_base n 16).bind (fromBase 16) = some n :=
  ⟨to_base_fromBase 2 (by norm_num) (by norm_num) n,
   to_base_fromBase 16 (by norm_num) (by norm_num) n⟩

/-- C3: for every base in `[2, 16]`, `to_base 0 base` returns `"0"`, and for
every `n > 0`, `to_base (-n) base` is `"-"` concatenated with
`to_base n base`. -/
theorem C3_zero_and_negative (base : Nat) (hb2 : 2 ≤ base) (hb16 : base ≤ 16) :
    to_base 0 base = some "0" ∧
    ∀ n : Int, 0 < n →
      to_base (-n) base = (to_base n base).map (fun s => "-" ++ s) := by
  have hguard : ¬ (base < 2 ∨ 16 < base) := by omega
  constructor
  · rw [to_base, if_neg hguard]
    exact if_pos rfl
  · intro n hn
    have hne : n ≠ 0 := by omega
    have hnegne : -n ≠ 0 := by omega
    have hneglt : -n < 0 := by omega
    have hnotlt : ¬ n < 0 := by omega
    simp only [to_base, if_neg hguard, if_neg hnegne, if_neg hne, if_pos hneglt,
      if_neg hnotlt, Int.natAbs_neg, Option.map_some', string_nil_append]

/-- Witness for C3 at base 16 and `n = 10`. -/
theorem C3_zero_and_negative_witness :
    to_base 0 16 = some "0" ∧
    to_base (-10) 16 = (to_base 10 16).map (fun s => "-" ++ s) :=
  ⟨(C3_zero_and_negative 16 (by decide) (by decide)).1,
   (C3_zero_and_negative 16 (by decide) (by decide)).2 10 (by decide)⟩

/-- Fuel-indexed form of the `while value > 0` digit-extraction loop of
`to_base`: each iteration emits `value % base` and floor-divides `value`
by `base`; `none` means the fuel ran out before the loop finished. -/
def toDigitsRevFuel (base : Nat) : Nat → Nat → Option (List Nat)
  | 0, v => if v = 0 then some [] else none
  | fuel + 1, v =>
    if v = 0 then some []
    else (toDigitsRevFuel base fuel (v / base)).map (fun ds => (v % base) :: ds)

/-- C9: for every base with `2 ≤ base ≤ 16` the digit-extraction loop of
`to_base` terminates: the working value strictly decreases under
floor-division while positive, so fuel equal to the initial value already
suffices for the fuelled loop to finish and agree with the total one. -/
theorem C9_to_base_terminates (base : Nat) (hb : 2 ≤ base) (hb16 : base ≤ 16) :
    (∀ v : Nat, 0 < v → v / base < v) ∧
    (∀ fuel v : Nat, v ≤ fuel →
      toDigitsRevFuel base fuel v = some (toDigitsRev base v)) := by
  have hb1 : 1 < base := hb
  refine ⟨fun v hv => Nat.div_lt_self hv hb1, ?_⟩
  intro fuel
  induction fuel with
  | zero =>
    intro v hv
    have h0 : v = 0 := Nat.le_zero.mp hv
    subst h0
    rw [toDigitsRevFuel, if_pos rfl, toDigitsRev_zero]
  | succ fuel ih =>
    intro v hv
    by_cases h0 : v = 0
    · subst h0
      rw [toDigitsRevFuel, if_pos rfl, toDigitsRev_zero]
    · have hvpos : 0 < v := Nat.pos_of_ne_zero h0
      have hdiv : v / base < v := Nat.div_lt_self hvpos hb1
      rw [toDigitsRevFuel, if_neg h0, ih (v / base) (by omega), Option.map_some',
        toDigitsRev_of_pos hb1 hvpos]

/-- Witness for C9 at base 16 and initial value 255. -/
theorem C9_to_base_terminates_witness :
    (255 / 16 < 255) ∧ toDigitsRevFuel 16 255 255 = some (toDigitsRev 16 255) :=
  ⟨(C9_to_base_terminates 16 (by decide) (by decide)).1 255 (by decide),
   (C9_to_base_terminates 16 (by decide) (by decide)).2 255 255 (Nat.le_refl 255)⟩

/-! ## Descriptive statistics (`computeStatistics.py`) -/

section Statistics

variable {α : Type} [LinearOrder α]

/-- One step of the frequency-building loop `freq[v] = freq.get(v, 0) + 1`
on an insertion-ordered table (Python dict semantics: existing keys are
updated in place, new keys are appended). -/
def bumpFreq : List (α × Nat) → α → List (α × Nat)
  | [], x => [(x, 1)]
  | (k, c) :: t, x => if k = x then (k, c + 1) :: t else (k, c) :: bumpFreq t x

/-- The frequency table built by `mode`'s first loop, keys in insertion
order. -/
def buildFreq (values : List α) : List (α × Nat) :=
  values.foldl bumpFreq []

/-- One step of `mode`'s scan over `freq.items()`: take a strictly higher
count, or on an equal count a strictly smaller value (only once some best
value exists). -/
def modeStep (s : Nat × Option α) (e : α × Nat) : Nat × Option α :=
  if e.2 > s.1 then (e.2, some e.1)
  else
    match s.2 with
    | some b => if e.2 = s.1 ∧ e.1 < b then (s.1, some e.1) else s
    | none => s

/-- `mode`'s scanning loop, started from `best_count = 0`,
`best_value = None`. -/
def modeLoop (es : List (α × Nat)) : Nat × Option α :=
  es.foldl modeStep (0, none)

/-- `mode(values)` from `computeStatistics.py`: build the frequency table,
scan it for the best (count, value) pair, and report `None` ("no mode")
when the best count is at most 1. -/
def mode (values : List α) : Option α :=
  let r := modeLoop (buildFreq values)
  if r.1 ≤ 1 then none else r.2

/-- `mean(values)` from `computeStatistics.py`: the running total divided by
`len(values)`; on the empty list Python raises `ZeroDivisionError`, modelled
as `none`. -/
def mean (values : List ℚ) : Option ℚ :=
  if values.length = 0 then none
  else some ((values.foldl (· + ·) 0) / values.length)

/-- Invariant of `mode`'s scanning loop: the best count bounds every count
seen, and the best value is the smallest value attaining the best count. -/
def ModeInv (es : List (α × Nat)) (s : Nat × Option α) : Prop :=
  (∀ p ∈ es, p.2 ≤ s.1) ∧
  (es = [] → s = (0, none)) ∧
  (es ≠ [] → ∃ m, s.2 = some m ∧ (m, s.1) ∈ es ∧ ∀ p ∈ es, p.2 = s.1 → m ≤ p.1)

theorem modeLoop_append (es : List (α × Nat)) (e : α × Nat) :
    modeLoop (es ++ [e]) = modeStep (modeLoop es) e := by
  simp [modeLoop, List.foldl_append]

theorem modeLoop_inv (es : List (α × Nat)) (h1 : ∀ p ∈ es, 1 ≤ p.2) :
    ModeInv es (modeLoop es) := by
  induction es using List.reverseRecOn with
  | nil =>
    refine ⟨by simp, fun _ => rfl, fun h => absurd rfl h⟩
  | append_singleton es e ih =>
    have h1' : ∀ p ∈ es, 1 ≤ p.2 := fun p hp => h1 p (List.mem_append_left _ hp)
    have he1 : 1 ≤ e.2 := h1 e (List.mem_append_right _ (List.mem_cons_self e []))
    obtain ⟨hbound, hnil, hchar⟩ := ih h1'
    rw [modeLoop_append]
    rcases eq_or_ne es [] with hes | hes
    · subst hes
      have hstate : modeLoop ([] : List (α × Nat)) = (0, none) := rfl
      rw [hstate]
      have hgt : e.2 > 0 := he1
      refine ⟨?_, by simp, ?_⟩
      · intro p hp
        simp only [List.nil_append, List.mem_singleton] at hp
        subst hp
        simp [modeStep, hgt]
      · intro _
        refine ⟨e.1, ?_, ?_, ?_⟩
        · simp [modeStep, hgt]
        · simp [modeStep, hgt]
        · intro p hp _
          simp only [List.nil_append, List.mem_singleton] at hp
          subst hp
          exact le_refl _
    · obtain ⟨m, hm2, hmmem, hmmin⟩ := hchar hes
      set s := modeLoop es with hs
      rcases lt_trichotomy s.1 e.2 with hlt | heq | hgt
      · -- strictly higher count: reset to (e.2, some e.1)
        have hstep : modeStep s e = (e.2, some e.1) := by
          simp [modeStep, hlt]
        rw [hstep]
        refine ⟨?_, by simp, fun _ => ⟨e.1, rfl, ?_, ?_⟩⟩
        · intro p hp
          rcases List.mem_append.mp hp with hp | hp
          · exact le_of_lt (lt_of_le_of_lt (hbound p hp) hlt)
          · simp only [List.mem_singleton] at hp
            subst hp; exact le_refl _
        · exact List.mem_append_right _ (by simp)
        · intro p hp hpe
          rcases List.mem_append.mp hp with hp | hp
          · exact absurd hpe (by have := hbound p hp; omega)
          · simp only [List.mem_singleton] at hp
            subst hp; exact le_refl _
      · -- equal count: possibly take the smaller value
        by_cases hsm : e.1 < m
        · have hstep : modeStep s e = (s.1, some e.1) := by
            simp [modeStep, hm2, ← heq, hsm]
          rw [hstep]
          refine ⟨?_, by simp, fun _ => ⟨e.1, rfl, ?_, ?_⟩⟩
          · intro p hp
            rcases List.mem_append.mp hp with hp | hp
            · exact hbound p hp
            · simp only [List.mem_singleton] at hp
              subst hp; omega
          · have : (e.1, e.2) ∈ [e] := by simp
            exact List.mem_append_right _ (by simpa [← heq] using this)
          · intro p hp hpe
            rcases List.mem_append.mp hp with hp | hp
            · exact le_of_lt (lt_of_lt_of_le hsm (hmmin p hp hpe))
            · simp only [List.mem_singleton] at hp
              subst hp; exact le_refl _
        · have hstep : modeStep s e = s := by
            simp only [modeStep, hm2]
            rw [if_neg (by omega)]
            rw [if_neg (by rintro ⟨-, hc⟩; exact hsm hc)]
          rw [hstep]
          refine ⟨?_, by simp, fun _ => ⟨m, hm2, List.mem_append_left _ hmmem, ?_⟩⟩
          · intro p hp
            rcases List.mem_append.mp hp with hp | hp
            · exact hbound p hp
            · simp only [List.mem_singleton] at hp
              subst hp; omega
          · intro p hp hpe
            rcases List.mem_append.mp hp with hp | hp
            · exact hmmin p hp hpe
            · simp only [List.mem_singleton] at hp
              subst hp
              exact le_of_not_lt hsm
      · -- strictly lower count: state unchanged
        have hstep : modeStep s e = s := by
          simp only [modeStep, hm2]
          rw [if_neg (by omega)]
          rw [if_neg (by rintro ⟨hc, -⟩; omega)]
        rw [hstep]
        refine ⟨?_, by simp, fun _ => ⟨m, hm2, List.mem_append_left _ hmmem, ?_⟩⟩
        · intro p hp
          rcases List.mem_append.mp hp with hp | hp
          · exact hbound p hp
          · simp only [List.mem_singleton] at hp
            subst hp; omega
        · intro p hp hpe
          rcases List.mem_append.mp hp with hp | hp
          · exact hmmin p hp hpe
          · simp only [List.mem_singleton] at hp
            subst hp; omega

/-- The result of `mode`'s scanning loop does not depend on the order in
which the frequency entries are scanned. -/
theorem modeLoop_perm (es₁ es₂ : List (α × Nat)) (hp : es₁.Perm es₂)
    (h1 : ∀ p ∈ es₁, 1 ≤ p.2) : modeLoop es₁ = modeLoop es₂ := by
  have h1' : ∀ p ∈ es₂, 1 ≤ p.2 := fun p hpm => h1 p (hp.mem_iff.mpr hpm)
  obtain ⟨hb1, hn1, hc1⟩ := modeLoop_inv es₁ h1
  obtain ⟨hb2, hn2, hc2⟩ := modeLoop_inv es₂ h1'
  rcases eq_or_ne es₁ [] with h | h
  · subst h
    have h2 : es₂ = [] := hp.symm.eq_nil
    rw [hn1 rfl, hn2 h2]
  · have h2 : es₂ ≠ [] := fun hh => h (List.Perm.eq_nil (hh ▸ hp))
    obtain ⟨m1, hm1, hmem1, hmin1⟩ := hc1 h
    obtain ⟨m2, hm2, hmem2, hmin2⟩ := hc2 h2
    have hbc : (modeLoop es₁).1 = (modeLoop es₂).1 :=
      le_antisymm (hb2 _ (hp.mem_iff.mp hmem1)) (hb1 _ (hp.mem_iff.mpr hmem2))
    have hmeq : m1 = m2 :=
      le_antisymm
        (hmin1 (m2, (modeLoop es₂).1) (hp.mem_iff.mpr hmem2) hbc.symm)
        (hmin2 (m1, (modeLoop es₁).1) (hp.mem_iff.mp hmem1) hbc)
    exact Prod.ext_iff.mpr ⟨hbc, by rw [hm1, hm2, hmeq]⟩

theorem buildFreq_append (l : List α) (x : α) :
    buildFreq (l ++ [x]) = bumpFreq (buildFreq l) x := by
  simp [buildFreq, List.foldl_append]

theorem bumpFreq_of_not_key (x : α) :
    ∀ es : List (α × Nat), x ∉ es.map Prod.fst → bumpFreq es x = es ++ [(x, 1)] := by
  intro es
  induction es with
  | nil => intro _; rfl
  | cons p t ih =>
    intro hx
    obtain ⟨k, c⟩ := p
    simp only [List.map_cons, List.mem_cons] at hx
    push_neg at hx
    rw [bumpFreq, if_neg (fun h => hx.1 h.symm), ih hx.2]
    rfl

theorem bumpFreq_of_key (x : α) (c₀ : Nat) :
    ∀ es : List (α × Nat), (es.map Prod.fst).Nodup → (x, c₀) ∈ es →
      ∃ es₁ es₂, es = es₁ ++ (x, c₀) :: es₂ ∧
        bumpFreq es x = es₁ ++ (x, c₀ + 1) :: es₂ ∧
        x ∉ es₁.map Prod.fst := by
  intro es
  induction es with
  | nil => intro _ hmem; exact absurd hmem (List.not_mem_nil _)
  | cons p t ih =>
    intro hnd hmem
    obtain ⟨k, c⟩ := p
    simp only [List.map_cons, List.nodup_cons] at hnd
    rcases eq_or_ne k x with hk | hk
    · subst hk
      have hc : c₀ = c := by
        rcases List.mem_cons.mp hmem with h | h
        · exact (Prod.ext_iff.mp h).2
        · exact absurd (List.mem_map_of_mem Prod.fst h) hnd.1
      subst hc
      refine ⟨[], t, by simp, ?_, by simp⟩
      rw [bumpFreq, if_pos rfl]
      simp
    · have hmem' : (x, c₀) ∈ t := by
        rcases List.mem_cons.mp hmem with h | h
        · exact absurd (congrArg Prod.fst h).symm hk
        · exact h
      obtain ⟨t₁, t₂, ht, hbump, hnx⟩ := ih hnd.2 hmem'
      refine ⟨(k, c) :: t₁, t₂, by rw [List.cons_append, ht], ?_, ?_⟩
      · rw [bumpFreq, if_neg hk, hbump]
        rfl
      · simp only [List.map_cons, List.mem_cons]
        push_neg
        exact ⟨fun h => hk h.symm, hnx⟩

/-- Correctness of the frequency table: distinct keys, and membership is
exactly "`v` occurs in the list with its occurrence count". -/
theorem buildFreq_spec (l : List α) :
    ((buildFreq l).map Prod.fst).Nodup ∧
    (∀ v c, (v, c) ∈ buildFreq l ↔ v ∈ l ∧ c = l.count v) := by
  induction l using List.reverseRecOn with
  | nil => exact ⟨List.nodup_nil, by simp [buildFreq]⟩
  | append_singleton l x ih =>
    obtain ⟨hnd, hiff⟩ := ih
    have hkey_mem : x ∈ (buildFreq l).map Prod.fst ↔ x ∈ l := by
      constructor
      · intro h
        obtain ⟨p, hp, hpx⟩ := List.mem_map.mp h
        obtain ⟨v, c⟩ := p
        cases hpx
        exact ((hiff _ _).mp hp).1
      · intro h
        exact List.mem_map_of_mem Prod.fst ((hiff x (l.count x)).mpr ⟨h, rfl⟩)
    have hcount_x : (l ++ [x]).count x = l.count x + 1 := by
      rw [List.count_append]
      simp
    have hcount_ne : ∀ v : α, v ≠ x → (l ++ [x]).count v = l.count v := by
      intro v hv
      have h1 : List.count v [x] = 0 := List.count_eq_zero_of_not_mem (by simp [hv])
      rw [List.count_append, h1, Nat.add_zero]
    have hmem_ne : ∀ v : α, v ≠ x → (v ∈ l ++ [x] ↔ v ∈ l) := by
      intro v hv
      rw [List.mem_append]
      simp [hv]
    rw [buildFreq_append]
    by_cases hx : x ∈ (buildFreq l).map Prod.fst
    · have hxl : x ∈ l := hkey_mem.mp hx
      obtain ⟨c₀, hc₀⟩ : ∃ c₀, (x, c₀) ∈ buildFreq l :=
        ⟨l.count x, (hiff x (l.count x)).mpr ⟨hxl, rfl⟩⟩
      have hc₀val : c₀ = l.count x := ((hiff _ _).mp hc₀).2
      obtain ⟨es₁, es₂, hdecomp, hbump, hx1⟩ := bumpFreq_of_key x c₀ (buildFreq l) hnd hc₀
      have hx2 : x ∉ es₂.map Prod.fst := by
        have hnd' := hnd
        rw [hdecomp] at hnd'
        simp only [List.map_append, List.map_cons] at hnd'
        exact (List.nodup_cons.mp (List.Nodup.of_append_right hnd')).1
      constructor
      · rw [hbump]
        have hkeys : (es₁ ++ (x, c₀ + 1) :: es₂).map Prod.fst =
            (es₁ ++ (x, c₀) :: es₂).map Prod.fst := by
          simp
        rw [hkeys, ← hdecomp]
        exact hnd
      · intro v c
        rw [hbump]
        rcases eq_or_ne v x with hv | hv
        · subst hv
          constructor
          · intro h
            rcases List.mem_append.mp h with h | h
            · exact absurd (List.mem_map_of_mem Prod.fst h) hx1
            · rcases List.mem_cons.mp h with h | h
              · have hcc : c = c₀ + 1 := (Prod.ext_iff.mp h).2
                exact ⟨List.mem_append_right _ (by simp),
                  by rw [hcc, hc₀val, hcount_x]⟩
              · exact absurd (List.mem_map_of_mem Prod.fst h) hx2
          · rintro ⟨-, hc⟩
            have hcc : c = c₀ + 1 := by
              rw [hcount_x] at hc
              omega
            rw [hcc]
            exact List.mem_append_right _ (List.mem_cons_self _ _)
        · constructor
          · intro h
            have hmem : (v, c) ∈ buildFreq l := by
              rw [hdecomp]
              rcases List.mem_append.mp h with h | h
              · exact List.mem_append_left _ h
              · rcases List.mem_cons.mp h with h | h
                · exact absurd (congrArg Prod.fst h) hv
                · exact List.mem_append_right _ (List.mem_cons_of_mem _ h)
            obtain ⟨hvl, hvc⟩ := (hiff v c).mp hmem
            exact ⟨(hmem_ne v hv).mpr hvl, by rw [hcount_ne v hv]; exact hvc⟩
          · rintro ⟨hvl, hvc⟩
            have hvl' : v ∈ l := (hmem_ne v hv).mp hvl
            have hvc' : c = l.count v := by rw [hcount_ne v hv] at hvc; exact hvc
            have hmem : (v, c) ∈ buildFreq l := (hiff v c).mpr ⟨hvl', hvc'⟩
            rw [hdecomp] at hmem
            rcases List.mem_append.mp hmem with h | h
            · exact List.mem_append_left _ h
            · rcases List.mem_cons.mp h with h | h
              · exact absurd (congrArg Prod.fst h) hv
              · exact List.mem_append_right _ (List.mem_cons_of_mem _ h)
    · have hxl : x ∉ l := fun h => hx (hkey_mem.mpr h)
      rw [bumpFreq_of_not_key x (buildFreq l) hx]
      constructor
      · rw [List.map_append]
        refine List.Nodup.append hnd (by simp) ?_
        intro a ha hb
        simp only [List.map_cons, List.map_nil, List.mem_singleton] at hb
        subst hb
        exact hx ha
      · intro v c
        rcases eq_or_ne v x with hv | hv
        · subst hv
          constructor
          · intro h
            rcases List.mem_append.mp h with h | h
            · exact absurd ((hiff _ _).mp h).1 hxl
            · rcases List.mem_singleton.mp h with h
              have hcc : c = 1 := (Prod.ext_iff.mp h).2
              refine ⟨List.mem_append_right _ (by simp), ?_⟩
              rw [hcc, hcount_x, List.count_eq_zero_of_not_mem hxl]
          · rintro ⟨-, hc⟩
            rw [hcount_x, List.count_eq_zero_of_not_mem hxl] at hc
            rw [hc]
            exact List.mem_append_right _ (by simp)
        · constructor
          · intro h
            rcases List.mem_append.mp h with h | h
            · obtain ⟨hvl, hvc⟩ := (hiff v c).mp h
              exact ⟨(hmem_ne v hv).mpr hvl, by rw [hcount_ne v hv]; exact hvc⟩
            · rcases List.mem_singleton.mp h with h
              exact absurd (congrArg Prod.fst h) hv
          · rintro ⟨hvl, hvc⟩
            have hvl' : v ∈ l := (hmem_ne v hv).mp hvl
            have hvc' : c = l.count v := by rw [hcount_ne v hv] at hvc; exact hvc
            exact List.mem_append_left _ ((hiff v c).mpr ⟨hvl', hvc'⟩)

theorem buildFreq_counts_pos (l : List α) : ∀ p ∈ buildFreq l, 1 ≤ p.2 := by
  intro p hp
  obtain ⟨v, c⟩ := p
  obtain ⟨hv, hc⟩ := ((buildFreq_spec l).2 v c).mp hp
  simpa [hc] using List.count_pos_iff.mpr hv

theorem buildFreq_ne_nil (l : List α) (h : l ≠ []) : buildFreq l ≠ [] := by
  obtain ⟨v, hv⟩ := List.exists_mem_of_ne_nil l h
  intro hf
  have hmem := ((buildFreq_spec l).2 v (l.count v)).mpr ⟨hv, rfl⟩
  rw [hf] at hmem
  exact List.not_mem_nil _ hmem

theorem mode_eq (l : List α) :
    mode l = if (modeLoop (buildFreq l)).1 ≤ 1 then none
             else (modeLoop (buildFreq l)).2 := rfl

/-- Characterization of `mode` on a non-empty list: "no mode" when nothing
repeats, otherwise the smallest value attaining the maximal count. -/
theorem mode_spec (l : List α) (hne : l ≠ []) :
    ((∀ v : α, l.count v ≤ 1) → mode l = none) ∧
    ((∃ v : α, 2 ≤ l.count v) →
      ∃ m, mode l = some m ∧ m ∈ l ∧
        (∀ v ∈ l, l.count v ≤ l.count m) ∧
        (∀ v ∈ l, l.count v = l.count m → m ≤ v)) := by
  obtain ⟨hnd, hiff⟩ := buildFreq_spec l
  have hpos := buildFreq_counts_pos l
  have hfne := buildFreq_ne_nil l hne
  obtain ⟨hbound, -, hchar⟩ := modeLoop_inv (buildFreq l) hpos
  obtain ⟨m, hm2, hmmem, hmmin⟩ := hchar hfne
  obtain ⟨hml, hmc⟩ := (hiff m (modeLoop (buildFreq l)).1).mp hmmem
  constructor
  · intro hall
    rw [mode_eq, if_pos (by rw [hmc]; exact hall m)]
  · rintro ⟨v, hv2⟩
    have hvl : v ∈ l := List.count_pos_iff.mp (by omega)
    have hvbc : l.count v ≤ (modeLoop (buildFreq l)).1 :=
      hbound (v, l.count v) ((hiff _ _).mpr ⟨hvl, rfl⟩)
    refine ⟨m, ?_, hml, ?_, ?_⟩
    · rw [mode_eq, if_neg (by omega), hm2]
    · intro w hw
      have := hbound (w, l.count w) ((hiff _ _).mpr ⟨hw, rfl⟩)
      omega
    · intro w hw hwc
      exact hmmin (w, l.count w) ((hiff _ _).mpr ⟨hw, rfl⟩) (hwc.trans hmc.symm)

/-- C4: on a non-empty list, `mode` returns "no mode" when no value repeats,
otherwise the smallest value attaining the highest occurrence count,
independently of the order in which the frequency entries are scanned;
in particular `mode [1,2,2,3,3] = 2` and `mode [1,2,3]` is "no mode". -/
theorem C4_mode (l : List ℚ) (hne : l ≠ []) :
    ((∀ v : ℚ, l.count v ≤ 1) → mode l = none) ∧
    ((∃ v : ℚ, 2 ≤ l.count v) →
      ∃ m, mode l = some m ∧ m ∈ l ∧
        (∀ v ∈ l, l.count v ≤ l.count m) ∧
        (∀ v ∈ l, l.count v = l.count m → m ≤ v)) ∧
    (∀ es : List (ℚ × Nat), es.Perm (buildFreq l) →
      (if (modeLoop es).1 ≤ 1 then none else (modeLoop es).2) = mode l) ∧
    mode ([1, 2, 2, 3, 3] : List ℚ) = some 2 ∧
    mode ([1, 2, 3] : List ℚ) = none := by
  refine ⟨(mode_spec l hne).1, (mode_spec l hne).2, ?_, ?_, ?_⟩
  · intro es hperm
    rw [modeLoop_perm es (buildFreq l) hperm
      (fun p hp => buildFreq_counts_pos l p (hperm.mem_iff.mp hp)), mode_eq]
  · decide
  · decide

/-- Witness for C4 on the two concrete example lists. -/
theorem C4_mode_witness :
    mode ([1, 2, 2, 3, 3] : List ℚ) = some 2 ∧ mode ([1, 2, 3] : List ℚ) = none :=
  ⟨(C4_mode [1, 2, 2, 3, 3] (List.cons_ne_nil _ _)).2.2.2.1,
   (C4_mode [1, 2, 3] (List.cons_ne_nil _ _)).2.2.2.2⟩

/-- C10: `mode` of the empty list is a normal `None` return, while `mean` of
the empty list is undefined (Python divides by the zero count); `mean` is
defined exactly on non-empty lists. -/
theorem C10_mode_total_mean_partial :
    mode ([] : List ℚ) = none ∧ mean [] = none ∧
    ∀ l : List ℚ, l ≠ [] → (mean l).isSome := by
  refine ⟨rfl, rfl, ?_⟩
  intro l hl
  rw [mean, if_neg (by simpa using hl)]
  rfl

/-- Witness for C10 at the one-element list `[1]`. -/
theorem C10_mode_total_mean_partial_witness : (mean ([1] : List ℚ)).isSome :=
  C10_mode_total_mean_partial.2.2 [1] (List.cons_ne_nil 1 [])

end Statistics

/-! ## Selection sort (`computeStatistics.py`) -/

section SelectionSort

variable {α : Type} [LinearOrder α] [Inhabited α]

/-- The parallel assignment `arr[i], arr[j] = arr[j], arr[i]`. -/
def swap (l : List α) (i j : Nat) : List α :=
  (l.set i (l.getD j default)).set j (l.getD i default)

/-- The inner loop of `selection_sort`: scan `j` from its current value to
the end, tracking the index of the least element seen (`min_idx`). -/
def minIdxAux (l : List α) (j best : Nat) : Nat :=
  if h : j < l.length then
    minIdxAux l (j + 1) (if l.getD j default < l.getD best default then j else best)
  else best
termination_by l.length - j
decreasing_by omega

/-- The outer loop of `selection_sort` over `i in range(n)`: find the least
element of `arr[i:]` and swap it into position `i`. -/
def selection_sortLoop (arr : List α) (i : Nat) : List α :=
  if h : i < arr.length then
    selection_sortLoop (swap arr i (minIdxAux arr (i + 1) i)) (i + 1)
  else arr
termination_by arr.length - i
decreasing_by simp only [swap, List.length_set]; omega

/-- `selection_sort(values)` from `computeStatistics.py`: operates on a copy
(`arr = values[:]`), so the input list is untouched. -/
def selection_sort (values : List α) : List α :=
  selection_sortLoop values 0

theorem length_swap (l : List α) (i j : Nat) : (swap l i j).length = l.length := by
  simp [swap]

theorem getD_swap (l : List α) (i j k : Nat) (hi : i < l.length) (hj : j < l.length)
    (hk : k < l.length) :
    (swap l i j).getD k default =
      if j = k then l.getD i default
      else if i = k then l.getD j default
      else l.getD k default := by
  have hk' : k < (swap l i j).length := by rw [length_swap]; exact hk
  rw [List.getD_eq_getElem _ default hk']
  simp only [swap]
  rw [List.getElem_set, List.getElem_set]
  by_cases h1 : j = k
  · rw [if_pos h1, if_pos h1]
  · rw [if_neg h1, if_neg h1]
    by_cases h2 : i = k
    · rw [if_pos h2, if_pos h2]
    · rw [if_neg h2, if_neg h2, List.getD_eq_getElem l default hk]

theorem getD_set_cons_perm (a : α) :
    ∀ (t : List α) (k : Nat), k < t.length →
      (t.getD k default :: t.set k a).Perm (a :: t) := by
  intro t
  induction t with
  | nil => intro k hk; simp at hk
  | cons b t ih =>
    intro k hk
    cases k with
    | zero =>
      simp only [List.getD_cons_zero, List.set_cons_zero]
      exact List.Perm.swap a b t
    | succ k =>
      have hk' : k < t.length := by simpa using hk
      simp only [List.getD_cons_succ, List.set_cons_succ]
      exact ((List.Perm.swap b (t.getD k default) (t.set k a)).trans
        ((ih k hk').cons b)).trans (List.Perm.swap a b t)

/-- Swapping two in-bounds positions permutes the list. -/
theorem swap_perm : ∀ (l : List α) (i j : Nat), i < l.length → j < l.length →
    (swap l i j).Perm l := by
  intro l
  induction l with
  | nil => intro i j hi _; simp at hi
  | cons a t ih =>
    intro i j hi hj
    cases i with
    | zero =>
      cases j with
      | zero =>
        simp [swap]
      | succ j =>
        have hj' : j < t.length := by simpa using hj
        show ((((a :: t).set 0 ((a :: t).getD (j + 1) default)).set (j + 1)
          ((a :: t).getD 0 default))).Perm (a :: t)
        simp only [List.getD_cons_succ, List.getD_cons_zero, List.set_cons_zero,
          List.set_cons_succ]
        exact getD_set_cons_perm a t j hj'
    | succ i =>
      cases j with
      | zero =>
        have hi' : i < t.length := by simpa using hi
        show ((((a :: t).set (i + 1) ((a :: t).getD 0 default)).set 0
          ((a :: t).getD (i + 1) default))).Perm (a :: t)
        simp only [List.getD_cons_succ, List.getD_cons_zero, List.set_cons_succ,
          List.set_cons_zero]
        exact getD_set_cons_perm a t i hi'
      | succ j =>
        have hi' : i < t.length := by simpa using hi
        have hj' : j < t.length := by simpa using hj
        show ((((a :: t).set (i + 1) ((a :: t).getD (j + 1) default)).set (j + 1)
          ((a :: t).getD (i + 1) default))).Perm (a :: t)
        simp only [List.getD_cons_succ, List.set_cons_succ]
        exact (ih i j hi' hj').cons a

/-- Specification of the inner loop: it returns an in-bounds index, at least
`best` or in the scanned range, holding a value no larger than the values at
`best` and at every scanned position. -/
theorem minIdxAux_spec (l : List α) (j best : Nat) (hbest : best < l.length) :
    minIdxAux l j best < l.length ∧
    (minIdxAux l j best = best ∨ j ≤ minIdxAux l j best) ∧
    l.getD (minIdxAux l j best) default ≤ l.getD best default ∧
    ∀ k, j ≤ k → k < l.length →
      l.getD (minIdxAux l j best) default ≤ l.getD k default := by
  rw [minIdxAux]
  by_cases h : j < l.length
  · rw [dif_pos h]
    by_cases hc : l.getD j default < l.getD best default
    · rw [if_pos hc]
      obtain ⟨h1, h2, h3, h4⟩ := minIdxAux_spec l (j + 1) j h
      refine ⟨h1, ?_, le_trans h3 (le_of_lt hc), ?_⟩
      · rcases h2 with h2 | h2 <;> exact Or.inr (by omega)
      · intro k hk hk2
        rcases Nat.eq_or_lt_of_le hk with hkeq | hlt
        · rw [← hkeq]; exact h3
        · exact h4 k hlt hk2
    · rw [if_neg hc]
      obtain ⟨h1, h2, h3, h4⟩ := minIdxAux_spec l (j + 1) best hbest
      refine ⟨h1, ?_, h3, ?_⟩
      · rcases h2 with h2 | h2
        · exact Or.inl h2
        · exact Or.inr (by omega)
      · intro k hk hk2
        rcases Nat.eq_or_lt_of_le hk with hkeq | hlt
        · rw [← hkeq]; exact le_trans h3 (not_lt.mp hc)
        · exact h4 k hlt hk2
  · rw [dif_neg h]
    exact ⟨hbest, Or.inl rfl, le_refl _,
      fun k hk hk2 => absurd (lt_of_le_of_lt hk hk2) (by omega)⟩
termination_by l.length - j

/-- Loop invariant of the outer loop: the working array stays a permutation
of the original, and positions below `i` are sorted and dominate nothing
after them. -/
theorem selection_sortLoop_spec (orig : List α) :
    ∀ (arr : List α) (i : Nat), arr.Perm orig →
      (∀ k1 k2, k1 < k2 → k2 < arr.length → k1 < i →
        arr.getD k1 default ≤ arr.getD k2 default) →
      (selection_sortLoop arr i).Perm orig ∧
      (∀ k1 k2, k1 < k2 → k2 < (selection_sortLoop arr i).length →
        (selection_sortLoop arr i).getD k1 default ≤
          (selection_sortLoop arr i).getD k2 default) := by
  intro arr i hperm hinv
  rw [selection_sortLoop]
  by_cases h : i < arr.length
  · rw [dif_pos h]
    obtain ⟨hm1, hm2, hm3, hm4⟩ := minIdxAux_spec arr (i + 1) i h
    set m := minIdxAux arr (i + 1) i with hmdef
    have him : i ≤ m := by rcases hm2 with h2 | h2 <;> omega
    have hperm' : (swap arr i m).Perm orig := (swap_perm arr i m h hm1).trans hperm
    have hlen : (swap arr i m).length = arr.length := length_swap arr i m
    have hinv' : ∀ k1 k2, k1 < k2 → k2 < (swap arr i m).length → k1 < i + 1 →
        (swap arr i m).getD k1 default ≤ (swap arr i m).getD k2 default := by
      intro k1 k2 h12 hk2 hk1
      rw [hlen] at hk2
      have hk1n : k1 < arr.length := lt_trans h12 hk2
      rw [getD_swap arr i m k1 h hm1 hk1n, getD_swap arr i m k2 h hm1 hk2]
      rcases Nat.lt_or_ge k1 i with hk1i | hk1i
      · -- k1 strictly below i: its entry is unchanged
        rw [if_neg (by omega), if_neg (by omega)]
        rcases eq_or_ne m k2 with hk2m | hk2m
        · rw [if_pos hk2m]
          exact hinv k1 i (by omega) h hk1i
        · rw [if_neg hk2m]
          rcases eq_or_ne i k2 with hk2i | hk2i
          · rw [if_pos hk2i]
            exact hinv k1 m (by omega) hm1 hk1i
          · rw [if_neg hk2i]
            exact hinv k1 k2 h12 hk2 hk1i
      · -- k1 = i: its new entry is the minimum of the suffix
        have hk1eq : k1 = i := by omega
        subst hk1eq
        rcases eq_or_ne m k1 with hk1m | hk1m
        · -- i = m: swap is at the same spot
          rw [if_pos hk1m]
          rcases eq_or_ne m k2 with hk2m | hk2m
          · omega
          · rw [if_neg hk2m, if_neg (by omega)]
            have hle := hm4 k2 (by omega) hk2
            rwa [hk1m] at hle
        · rw [if_neg hk1m, if_pos rfl]
          rcases eq_or_ne m k2 with hk2m | hk2m
          · rw [if_pos hk2m]
            exact hm3
          · rw [if_neg hk2m, if_neg (by omega)]
            exact hm4 k2 (by omega) hk2
    exact selection_sortLoop_spec orig (swap arr i m) (i + 1) hperm' hinv'
  · rw [dif_neg h]
    exact ⟨hperm, fun k1 k2 h12 hk2 => hinv k1 k2 h12 hk2 (by omega)⟩
termination_by arr i => arr.length - i
decreasing_by simp only [swap, List.length_set]; omega

end SelectionSort

/-- C8: `selection_sort` returns an ascending-ordered permutation of its
input; the caller's list is untouched (the embedding is pure, mirroring the
source's initial copy `arr = values[:]` — only the copy is mutated). -/
theorem C8_selection_sort (l : List ℚ) :
    (selection_sort l).Perm l ∧ (selection_sort l).Sorted (· ≤ ·) := by
  have hsel : selection_sort l = selection_sortLoop l 0 := rfl
  obtain ⟨hperm, hsorted⟩ :=
    selection_sortLoop_spec l l 0 (List.Perm.refl l) (by omega)
  rw [hsel]
  refine ⟨hperm, ?_⟩
  rw [List.Sorted, List.pairwise_iff_getElem]
  intro a b ha hb hab
  have hgd := hsorted a b hab hb
  rwa [List.getD_eq_getElem _ default (lt_trans hab hb),
    List.getD_eq_getElem _ default hb] at hgd

/-! ## Parsers (`computeStatistics.py`, `convertNumbers.py`, `wordCount.py`)

Python's `str.strip()`, `str.lower()` and `str.split()` are modelled
character-wise over `String.data` (ASCII scope). -/

/-- Drop leading whitespace characters. -/
def dropLeadingWS : List Char → List Char
  | [] => []
  | c :: cs => if c.isWhitespace then dropLeadingWS cs else c :: cs

/-- Python `text.strip()`: remove leading and trailing whitespace. -/
def pyStrip (s : String) : String :=
  String.mk ((dropLeadingWS (dropLeadingWS s.data).reverse).reverse)

/-- Python `text.lower()` (ASCII case fold). -/
def pyLower (s : String) : String :=
  String.mk (s.data.map Char.toLower)

/-- Python `text.split()`: split on whitespace runs, dropping empty parts
(accumulator holds the current word reversed). -/
def splitWSAux : List Char → List Char → List (List Char)
  | [], cur => if cur.isEmpty then [] else [cur.reverse]
  | c :: cs, cur =>
    if c.isWhitespace then
      if cur.isEmpty then splitWSAux cs [] else cur.reverse :: splitWSAux cs []
    else splitWSAux cs (c :: cur)

def splitWS (cs : List Char) : List (List Char) := splitWSAux cs []

/-- Tail of a Python integer digit-part after its first digit: digits in
which a single `'_'` may stand between two digits. -/
def isDigitTail : List Char → Bool
  | [] => true
  | c :: cs =>
    if c = '_' then
      match cs with
      | [] => false
      | d :: ds => d.isDigit && isDigitTail ds
    else c.isDigit && isDigitTail cs

/-- Python `digitpart`: `digit (["_"] digit)*`. -/
def isDigitPart : List Char → Bool
  | [] => false
  | c :: cs => c.isDigit && isDigitTail cs

/-- Decimal value of a digit string, ignoring the `'_'` separators. -/
def digitsVal (cs : List Char) : Nat :=
  (cs.filter (fun c => c ≠ '_')).foldl (fun a c => a * 10 + (c.toNat - '0'.toNat)) 0

/-- CPython `int(text)` on already-stripped ASCII text: an optional sign
followed by a `digitpart` (decimal digits, single underscores allowed
between digits); anything else raises `ValueError` (`none`). -/
def pyInt (s : String) : Option Int :=
  match s.data with
  | '+' :: cs => if isDigitPart cs then some (Int.ofNat (digitsVal cs)) else none
  | '-' :: cs => if isDigitPart cs then some (-(Int.ofNat (digitsVal cs))) else none
  | cs => if isDigitPart cs then some (Int.ofNat (digitsVal cs)) else none

/-- Consume a leading `digitpart`; `none` when no digit starts the input. -/
def scanTail : List Char → List Char
  | [] => []
  | '_' :: c :: cs => if c.isDigit then scanTail cs else '_' :: c :: cs
  | c :: cs => if c.isDigit then scanTail cs else c :: cs

def scanDigits : List Char → Option (List Char)
  | [] => none
  | c :: cs => if c.isDigit then some (scanTail cs) else none

/-- A complete `digitpart` and nothing else. -/
def fullDigitPart (cs : List Char) : Bool :=
  match scanDigits cs with
  | some [] => true
  | _ => false

/-- Exponent suffix after `'e'`/`'E'`: optional sign, then a `digitpart`. -/
def expTail : List Char → Bool
  | '+' :: cs => fullDigitPart cs
  | '-' :: cs => fullDigitPart cs
  | cs => fullDigitPart cs

/-- Optional exponent part closing a float literal. -/
def isExpPart : List Char → Bool
  | [] => true
  | 'e' :: cs => expTail cs
  | 'E' :: cs => expTail cs
  | _ => false

/-- What may follow the integer `digitpart` of a float literal:
an optional `'.'` with optional fraction digits, then an optional exponent. -/
def afterIntPart : List Char → Bool
  | '.' :: cs =>
    (match scanDigits cs with
     | some rest => isExpPart rest
     | none => isExpPart cs)
  | cs => isExpPart cs

/-- Numeric body of a CPython float literal (no sign):
`digitpart ["." [digitpart]] [exp]` or `"." digitpart [exp]`. -/
def isFloatNumBody (cs : List Char) : Bool :=
  match scanDigits cs with
  | some rest => afterIntPart rest
  | none =>
    match cs with
    | '.' :: cs' =>
      (match scanDigits cs' with
       | some rest => isExpPart rest
       | none => false)
    | _ => false

/-- Unsigned body of a CPython `float(text)` argument: `inf`, `infinity`,
`nan` (case-insensitive) or a numeric literal. -/
def isFloatBody (cs : List Char) : Bool :=
  (cs.map Char.toLower == "inf".data) || (cs.map Char.toLower == "infinity".data) ||
  (cs.map Char.toLower == "nan".data) || isFloatNumBody cs

/-- CPython `float(text)` validity on already-stripped ASCII text. -/
def isValidPyFloat (s : String) : Bool :=
  match s.data with
  | '+' :: cs => isFloatBody cs
  | '-' :: cs => isFloatBody cs
  | cs => isFloatBody cs

/-- Line loop of `parse_numbers`: blank lines and invalid lines each
produce one error message; valid lines append a value.  The parsed value
is kept as its validated text (no claim depends on the float's value). -/
def parseNumbersAux : Nat → List String → List String × List String
  | _, [] => ([], [])
  | lineNo, raw :: rest =>
    let text := pyStrip raw
    let r := parseNumbersAux (lineNo + 1) rest
    if text = "" then (r.1, s!"Line {lineNo}: empty line (skipped)" :: r.2)
    else if isValidPyFloat text then (text :: r.1, r.2)
    else (r.1, s!"Line {lineNo}: invalid number '{text}' (skipped)" :: r.2)

/-- `parse_numbers(file_path)`: a missing file yields one error and an
empty list; otherwise every line is processed in order. -/
def parse_numbers (file_path : String) (file : Option (List String)) :
    List String × List String :=
  match file with
  | none => ([], [s!"File not found: {file_path}"])
  | some lines => parseNumbersAux 1 lines

/-- Line loop of `parse_integers` (`int(text)` instead of `float(text)`). -/
def parseIntegersAux : Nat → List String → List Int × List String
  | _, [] => ([], [])
  | lineNo, raw :: rest =>
    let text := pyStrip raw
    let r := parseIntegersAux (lineNo + 1) rest
    if text = "" then (r.1, s!"Line {lineNo}: empty line (skipped)" :: r.2)
    else
      match pyInt text with
      | some v => (v :: r.1, r.2)
      | none => (r.1, s!"Line {lineNo}: invalid integer '{text}' (skipped)" :: r.2)

/-- `parse_integers(file_path)` from `convertNumbers.py`. -/
def parse_integers (file_path : String) (file : Option (List String)) :
    List Int × List String :=
  match file with
  | none => ([], [s!"File not found: {file_path}"])
  | some lines => parseIntegersAux 1 lines

/-- The fixed punctuation set stripped by `normalize_token`. -/
def PUNCT : List Char :=
  ['.', ',', ';', ':', '!', '?', '\x22', '\x27', '(', ')', '[', ']',
   '\x7b', '\x7d', '<', '>']

/-- Strip a leading run of punctuation characters. -/
def stripLeadingPunct : List Char → List Char
  | [] => []
  | c :: cs => if c ∈ PUNCT then stripLeadingPunct cs else c :: cs

/-- `normalize_token` from `wordCount.py`: strip, lowercase, then strip the
punctuation set from both ends. -/
def normalize_token (t : String) : String :=
  let low := (pyLower (pyStrip t)).data
  String.mk (stripLeadingPunct (stripLeadingPunct low).reverse).reverse

/-- Words contributed by one raw line of `parse_words`: a blank line is
skipped silently (`continue` with no error entry), otherwise the line is
whitespace-split and each token normalized, dropping empty results. -/
def lineWords (raw : String) : List String :=
  let text := pyStrip raw
  if text = "" then []
  else (splitWS text.data).filterMap (fun p =>
    let w := normalize_token (String.mk p)
    if w = "" then none else some w)

/-- `parse_words(file_path)` from `wordCount.py`: per-line problems are
never logged; only a missing/unreadable file produces an error entry. -/
def parse_words (file_path : String) (file : Option (List String)) :
    List String × List String :=
  match file with
  | none => ([], [s!"File not found: {file_path}"])
  | some lines => (lines.bind lineWords, [])

theorem digit_ne_underscore {c : Char} (h : c.isDigit = true) : c ≠ '_' := by
  intro hc
  subst hc
  exact absurd h (by decide)

/-- Spec-side description of the tail of a Python `digitpart`: digits and
underscores, never ending in an underscore, never two underscores in a row. -/
def TailP (cs : List Char) : Prop :=
  (∀ c ∈ cs, c.isDigit ∨ c = '_') ∧ cs.getLast? ≠ some '_' ∧
  cs.Chain' (fun a b => ¬(a = '_' ∧ b = '_'))

theorem isDigitTail_cons (c : Char) (cs : List Char) :
    isDigitTail (c :: cs) =
      if c = '_' then
        match cs with
        | [] => false
        | d :: ds => d.isDigit && isDigitTail ds
      else c.isDigit && isDigitTail cs := by
  rw [isDigitTail.eq_def]

theorem isDigitTail_iff (cs : List Char) : isDigitTail cs = true ↔ TailP cs := by
  generalize hn : cs.length = n
  induction n using Nat.strong_induction_on generalizing cs with
  | _ n ih =>
  rcases cs with _ | ⟨c, cs'⟩
  · simp [isDigitTail, TailP]
  · rw [isDigitTail_cons]
    by_cases hc : c = '_'
    · subst hc
      rw [if_pos rfl]
      rcases cs' with _ | ⟨d, ds⟩
      · simp [TailP]
      · have hds : ds.length < n := by
          rw [← hn]
          simp only [List.length_cons]
          omega
        rw [Bool.and_eq_true, ih ds.length hds ds rfl]
        constructor
        · rintro ⟨hd, hall, hlast, hchain⟩
          have hdne : d ≠ '_' := digit_ne_underscore hd
          refine ⟨?_, ?_, ?_⟩
          · intro x hx
            rcases List.mem_cons.mp hx with hx | hx
            · exact Or.inr hx
            · rcases List.mem_cons.mp hx with hx | hx
              · exact hx ▸ Or.inl hd
              · exact hall x hx
          · cases ds with
            | nil => simpa using hdne
            | cons e es =>
              rw [List.getLast?_cons_cons, List.getLast?_cons_cons]
              exact hlast
          · rw [List.chain'_cons]
            refine ⟨fun hx => hdne hx.2, ?_⟩
            rw [List.chain'_cons']
            exact ⟨fun y hy hx => hdne hx.1, hchain⟩
        · rintro ⟨hall, hlast, hchain⟩
          rw [List.chain'_cons] at hchain
          have hdne : d ≠ '_' := fun hx => hchain.1 ⟨rfl, hx⟩
          have hd : d.isDigit := by
            rcases hall d (List.mem_cons_of_mem _ (List.mem_cons_self _ _)) with h | h
            · exact h
            · exact absurd h hdne
          refine ⟨hd, fun x hx =>
            hall x (List.mem_cons_of_mem _ (List.mem_cons_of_mem _ hx)), ?_,
            (List.chain'_cons'.mp hchain.2).2⟩
          cases ds with
          | nil => simp
          | cons e es =>
            rw [List.getLast?_cons_cons, List.getLast?_cons_cons] at hlast
            exact hlast
    · have hcs : cs'.length < n := by
        rw [← hn]
        simp only [List.length_cons]
        omega
      rw [if_neg hc, Bool.and_eq_true, ih cs'.length hcs cs' rfl]
      constructor
      · rintro ⟨hcd, hall, hlast, hchain⟩
        refine ⟨?_, ?_, ?_⟩
        · intro x hx
          rcases List.mem_cons.mp hx with hx | hx
          · exact hx ▸ Or.inl hcd
          · exact hall x hx
        · cases cs' with
          | nil => simpa using digit_ne_underscore hcd
          | cons d ds =>
            rw [List.getLast?_cons_cons]
            exact hlast
        · rw [List.chain'_cons']
          exact ⟨fun y hy hx => hc hx.1, hchain⟩
      · rintro ⟨hall, hlast, hchain⟩
        have hcd : c.isDigit := by
          rcases hall c (List.mem_cons_self _ _) with h | h
          · exact h
          · exact absurd h hc
        refine ⟨hcd, fun x hx => hall x (List.mem_cons_of_mem _ hx), ?_,
          (List.chain'_cons'.mp hchain).2⟩
        cases cs' with
        | nil => simp
        | cons d ds =>
          rw [List.getLast?_cons_cons] at hlast
          exact hlast

/-- Spec-side description of a Python `digitpart`: non-empty, characters
are digits or `'_'`, starting and ending with a digit, no `"__"`. -/
def SpecDigitPart (body : List Char) : Prop :=
  body ≠ [] ∧ (∀ c ∈ body, c.isDigit ∨ c = '_') ∧
  body.head? ≠ some '_' ∧ body.getLast? ≠ some '_' ∧
  body.Chain' (fun a b => ¬(a = '_' ∧ b = '_'))

theorem isDigitPart_iff (cs : List Char) : isDigitPart cs = true ↔ SpecDigitPart cs := by
  cases cs with
  | nil =>
    simp [isDigitPart, SpecDigitPart]
  | cons c cs' =>
    rw [show isDigitPart (c :: cs') = (c.isDigit && isDigitTail cs') from rfl,
      Bool.and_eq_true, isDigitTail_iff cs']
    constructor
    · rintro ⟨hc, hall, hlast, hchain⟩
      have hcne : c ≠ '_' := digit_ne_underscore hc
      refine ⟨List.cons_ne_nil _ _, ?_, ?_, ?_, ?_⟩
      · intro x hx
        rcases List.mem_cons.mp hx with hx | hx
        · exact hx ▸ Or.inl hc
        · exact hall x hx
      · simpa using hcne
      · cases cs' with
        | nil => simpa using hcne
        | cons d ds =>
          rw [List.getLast?_cons_cons]
          exact hlast
      · rw [List.chain'_cons']
        exact ⟨fun y hy hx => hcne hx.1, hchain⟩
    · rintro ⟨-, hall, hhead, hlast, hchain⟩
      have hcne : c ≠ '_' := by
        intro hc
        exact hhead (by rw [List.head?_cons, hc])
      have hc : c.isDigit := by
        rcases hall c (List.mem_cons_self _ _) with h | h
        · exact h
        · exact absurd h hcne
      refine ⟨hc, fun x hx => hall x (List.mem_cons_of_mem _ hx), ?_,
        (List.chain'_cons'.mp hchain).2⟩
      cases cs' with
      | nil => simp
      | cons d ds =>
        rw [List.getLast?_cons_cons] at hlast
        exact hlast

theorem parseIntegersAux_cons (n : Nat) (raw : String) (rest : List String) :
    parseIntegersAux n (raw :: rest) =
      if pyStrip raw = "" then
        ((parseIntegersAux (n + 1) rest).1,
         s!"Line {n}: empty line (skipped)" :: (parseIntegersAux (n + 1) rest).2)
      else
        match pyInt (pyStrip raw) with
        | some v =>
          (v :: (parseIntegersAux (n + 1) rest).1, (parseIntegersAux (n + 1) rest).2)
        | none =>
          ((parseIntegersAux (n + 1) rest).1,
           s!"Line {n}: invalid integer '{pyStrip raw}' (skipped)" ::
             (parseIntegersAux (n + 1) rest).2) := rfl

theorem parseIntegersAux_values (n : Nat) (lines : List String) :
    (parseIntegersAux n lines).1 =
      lines.filterMap (fun raw => pyInt (pyStrip raw)) := by
  induction lines generalizing n with
  | nil => rfl
  | cons raw rest ih =>
    rw [parseIntegersAux_cons, List.filterMap_cons]
    by_cases h1 : pyStrip raw = ""
    · rw [if_pos h1, h1]
      show (parseIntegersAux (n + 1) rest).1 = _
      rw [show pyInt "" = none from rfl]
      exact ih (n + 1)
    · rw [if_neg h1]
      cases hpy : pyInt (pyStrip raw) with
      | none => simpa using ih (n + 1)
      | some v =>
        show v :: (parseIntegersAux (n + 1) rest).1 = _
        rw [ih (n + 1)]

theorem specDigitPart_of_all_digits (cs : List Char)
    (h : (!cs.isEmpty && cs.all Char.isDigit) = true) : SpecDigitPart cs := by
  rw [Bool.and_eq_true] at h
  have hne : cs ≠ [] := by
    intro hnil
    subst hnil
    exact absurd h.1 (by decide)
  have hall : ∀ c ∈ cs, c.isDigit := by
    simpa [List.all_eq_true] using h.2
  refine ⟨hne, fun c hc => Or.inl (hall c hc), ?_, ?_, ?_⟩
  · intro hhead
    have : '_' ∈ cs := by
      cases cs with
      | nil => exact absurd rfl hne
      | cons c cs' =>
        rw [List.head?_cons, Option.some_inj] at hhead
        exact hhead ▸ List.mem_cons_self _ _
    exact digit_ne_underscore (hall '_' this) rfl
  · intro hlast
    exact digit_ne_underscore (hall '_' (List.mem_of_getLast?_eq_some hlast)) rfl
  · refine List.Pairwise.chain' (List.pairwise_of_forall_mem_list ?_)
    intro a ha b hb hab
    exact digit_ne_underscore (hall a ha) hab.1

theorem pyInt_isSome_iff (s : String) : (pyInt s).isSome ↔
    ∃ body : List Char,
      (s.data = body ∨ s.data = '+' :: body ∨ s.data = '-' :: body) ∧
      SpecDigitPart body := by
  have hplus : ¬ ('+'.isDigit ∨ '+' = '_') := by decide
  have hminus : ¬ ('-'.isDigit ∨ '-' = '_') := by decide
  rw [pyInt.eq_def]
  split
  · rename_i cs heq
    constructor
    · intro h
      have hdp : isDigitPart cs = true := by
        by_contra hn
        rw [if_neg hn] at h
        exact absurd h (by decide)
      exact ⟨cs, Or.inr (Or.inl heq), (isDigitPart_iff cs).mp hdp⟩
    · rintro ⟨body, hb, hspec⟩
      have hcs : isDigitPart cs = true := by
        rcases hb with hb | hb | hb
        · rw [heq] at hb
          exact absurd (hspec.2.1 '+' (hb ▸ List.mem_cons_self _ _)) hplus
        · rw [heq] at hb
          injection hb with h1 h2
          exact (isDigitPart_iff cs).mpr (h2 ▸ hspec)
        · rw [heq] at hb
          injection hb with h1 h2
          exact absurd h1 (by decide)
      rw [if_pos hcs]
      rfl
  · rename_i cs heq
    constructor
    · intro h
      have hdp : isDigitPart cs = true := by
        by_contra hn
        rw [if_neg hn] at h
        exact absurd h (by decide)
      exact ⟨cs, Or.inr (Or.inr heq), (isDigitPart_iff cs).mp hdp⟩
    · rintro ⟨body, hb, hspec⟩
      have hcs : isDigitPart cs = true := by
        rcases hb with hb | hb | hb
        · rw [heq] at hb
          exact absurd (hspec.2.1 '-' (hb ▸ List.mem_cons_self _ _)) hminus
        · rw [heq] at hb
          injection hb with h1 h2
          exact absurd h1 (by decide)
        · rw [heq] at hb
          injection hb with h1 h2
          exact (isDigitPart_iff cs).mpr (h2 ▸ hspec)
      rw [if_pos hcs]
      rfl
  · rename_i h1 h2
    constructor
    · intro h
      have hdp : isDigitPart s.data = true := by
        by_contra hn
        rw [if_neg hn] at h
        exact absurd h (by decide)
      exact ⟨s.data, Or.inl rfl, (isDigitPart_iff s.data).mp hdp⟩
    · rintro ⟨body, hb, hspec⟩
      have hcs : isDigitPart s.data = true := by
        rcases hb with hb | hb | hb
        · exact (isDigitPart_iff s.data).mpr (hb ▸ hspec)
        · exact absurd hb (h1 body)
        · exact absurd hb (h2 body)
      rw [if_pos hcs]
      rfl

/-- The claim's grammar for a signed integer literal: an optional leading
sign followed by decimal digits only. -/
def isClaimIntLiteral (s : String) : Bool :=
  match s.data with
  | '+' :: cs => !cs.isEmpty && cs.all Char.isDigit
  | '-' :: cs => !cs.isEmpty && cs.all Char.isDigit
  | cs => !cs.isEmpty && cs.all Char.isDigit

/-- C5 counterexample: `int("1_0")` succeeds in Python (underscore digit
separators), so the line `"1_0"` is appended as the value 10 even though it
is not "an optional leading sign followed by decimal digits only". -/
theorem C5_counterexample :
    (parse_integers "f" (some ["1_0"])).1 = [10] ∧
    isClaimIntLiteral "1_0" = false := by
  constructor
  · decide
  · decide

/-- C5 (amended): a value is appended iff the trimmed line is an optional
sign followed by a Python `digitpart` — decimal digits in which single
underscores may separate digits (no decimal point, no exponent); malformed
or fractional tokens are errors, never truncated. -/
theorem C5_parse_integers (path : String) (lines : List String) :
    ((parse_integers path (some lines)).1 =
      lines.filterMap (fun raw => pyInt (pyStrip raw))) ∧
    (∀ s : String, (pyInt s).isSome ↔
      ∃ body : List Char,
        (s.data = body ∨ s.data = '+' :: body ∨ s.data = '-' :: body) ∧
        SpecDigitPart body) ∧
    (∀ s : String, (pyInt s).isSome →
      ∀ c ∈ s.data, c.isDigit ∨ c = '_' ∨ c = '+' ∨ c = '-') ∧
    (∀ s : String, isClaimIntLiteral s = true → (pyInt s).isSome) := by
  refine ⟨parseIntegersAux_values 1 lines, pyInt_isSome_iff, ?_, ?_⟩
  · intro s hs c hc
    obtain ⟨body, hbody, hspec⟩ := (pyInt_isSome_iff s).mp hs
    rcases hbody with hb | hb | hb
    · rcases (hspec.2.1 c (hb ▸ hc)) with h | h
      · exact Or.inl h
      · exact Or.inr (Or.inl h)
    · rw [hb, List.mem_cons] at hc
      rcases hc with hc | hc
      · exact Or.inr (Or.inr (Or.inl hc))
      · rcases hspec.2.1 c hc with h | h
        · exact Or.inl h
        · exact Or.inr (Or.inl h)
    · rw [hb, List.mem_cons] at hc
      rcases hc with hc | hc
      · exact Or.inr (Or.inr (Or.inr hc))
      · rcases hspec.2.1 c hc with h | h
        · exact Or.inl h
        · exact Or.inr (Or.inl h)
  · intro s hclaim
    rw [pyInt_isSome_iff]
    rw [isClaimIntLiteral.eq_def] at hclaim
    split at hclaim
    · rename_i cs heq
      exact ⟨cs, Or.inr (Or.inl heq), specDigitPart_of_all_digits cs hclaim⟩
    · rename_i cs heq
      exact ⟨cs, Or.inr (Or.inr heq), specDigitPart_of_all_digits cs hclaim⟩
    · rename_i h1 h2
      exact ⟨s.data, Or.inl rfl, specDigitPart_of_all_digits s.data hclaim⟩

theorem parseNumbersAux_cons (n : Nat) (raw : String) (rest : List String) :
    parseNumbersAux n (raw :: rest) =
      if pyStrip raw = "" then
        ((parseNumbersAux (n + 1) rest).1,
         s!"Line {n}: empty line (skipped)" :: (parseNumbersAux (n + 1) rest).2)
      else if isValidPyFloat (pyStrip raw) then
        (pyStrip raw :: (parseNumbersAux (n + 1) rest).1, (parseNumbersAux (n + 1) rest).2)
      else
        ((parseNumbersAux (n + 1) rest).1,
         s!"Line {n}: invalid number '{pyStrip raw}' (skipped)" ::
           (parseNumbersAux (n + 1) rest).2) := rfl

theorem parseNumbersAux_length (n : Nat) (lines : List String) :
    (parseNumbersAux n lines).1.length + (parseNumbersAux n lines).2.length =
      lines.length := by
  induction lines generalizing n with
  | nil => rfl
  | cons raw rest ih =>
    rw [parseNumbersAux_cons]
    have h := ih (n + 1)
    by_cases h1 : pyStrip raw = ""
    · rw [if_pos h1]
      simp only [List.length_cons]
      omega
    · rw [if_neg h1]
      by_cases h2 : isValidPyFloat (pyStrip raw)
      · rw [if_pos h2]
        simp only [List.length_cons]
        omega
      · rw [if_neg h2]
        simp only [List.length_cons]
        omega

theorem parseIntegersAux_length (n : Nat) (lines : List String) :
    (parseIntegersAux n lines).1.length + (parseIntegersAux n lines).2.length =
      lines.length := by
  induction lines generalizing n with
  | nil => rfl
  | cons raw rest ih =>
    rw [parseIntegersAux_cons]
    have h := ih (n + 1)
    by_cases h1 : pyStrip raw = ""
    · rw [if_pos h1]
      simp only [List.length_cons]
      omega
    · rw [if_neg h1]
      cases hpy : pyInt (pyStrip raw) with
      | none =>
        simp only [List.length_cons]
        omega
      | some v =>
        simp only [List.length_cons]
        omega

/-- C6 counterexample: the word parser skips a blank line silently — the
one-line file consisting of an empty line yields no value and no ErrorLog
entry at all, while the claim demands exactly one entry per skipped line. -/
theorem C6_counterexample :
    (parse_words "f" (some [""])).1 = [] ∧
    (parse_words "f" (some [""])).2 = [] := by
  constructor
  · decide
  · decide

/-- C6 (amended): in the numeric and integer parsers every line yields
exactly one value or exactly one ErrorLog entry (values + errors = lines:
nothing is dropped silently and no bad line stops the scan); the word
parser, however, never logs per-line entries — blank lines and tokens that
normalize to the empty string are skipped silently. -/
theorem C6_per_line_accounting (path : String) (lines : List String) :
    (parse_numbers path (some lines)).1.length +
      (parse_numbers path (some lines)).2.length = lines.length ∧
    (parse_integers path (some lines)).1.length +
      (parse_integers path (some lines)).2.length = lines.length ∧
    (parse_words path (some lines)).2 = [] :=
  ⟨parseNumbersAux_length 1 lines, parseIntegersAux_length 1 lines, rfl⟩

/-! ## Word aggregator (`wordCount.py`) -/

section FreqKeys

variable {α : Type} [LinearOrder α]

theorem buildFreq_key_mem (l : List α) (x : α) :
    x ∈ (buildFreq l).map Prod.fst ↔ x ∈ l := by
  constructor
  · intro h
    obtain ⟨p, hp, hpx⟩ := List.mem_map.mp h
    obtain ⟨v, c⟩ := p
    cases hpx
    exact (((buildFreq_spec l).2 v c).mp hp).1
  · intro h
    exact List.mem_map_of_mem Prod.fst
      (((buildFreq_spec l).2 x (l.count x)).mpr ⟨h, rfl⟩)

theorem buildFreq_keys_append (l : List α) (x : α) :
    (buildFreq (l ++ [x])).map Prod.fst =
      if x ∈ l then (buildFreq l).map Prod.fst
      else (buildFreq l).map Prod.fst ++ [x] := by
  rw [buildFreq_append]
  by_cases hx : x ∈ l
  · rw [if_pos hx]
    obtain ⟨c₀, hc₀⟩ : ∃ c₀, (x, c₀) ∈ buildFreq l :=
      ⟨l.count x, ((buildFreq_spec l).2 x (l.count x)).mpr ⟨hx, rfl⟩⟩
    obtain ⟨es₁, es₂, hdecomp, hbump, -⟩ :=
      bumpFreq_of_key x c₀ (buildFreq l) (buildFreq_spec l).1 hc₀
    rw [hbump, hdecomp]
    simp
  · rw [if_neg hx,
      bumpFreq_of_not_key x _ (fun h => hx ((buildFreq_key_mem l x).mp h))]
    simp

end FreqKeys

theorem indexOf_append_self_not_mem (ws : List String) (x : String) (hx : x ∉ ws) :
    (ws ++ [x]).indexOf x = ws.length := by
  induction ws with
  | nil => simp
  | cons a t ih =>
    have hax : a ≠ x := fun h => hx (h ▸ List.mem_cons_self a t)
    have hxt : x ∉ t := fun h => hx (List.mem_cons_of_mem a h)
    rw [List.cons_append, List.indexOf_cons_ne _ hax, ih hxt, List.length_cons]

/-- `counts[w]` / `first_index[w]` on an association-list table
(0 when absent; lookups in the tools are always on present keys). -/
def lookupD (es : List (String × Nat)) (w : String) : Nat :=
  ((es.find? (fun p => p.1 == w)).map Prod.snd).getD 0

theorem lookupD_eq (es : List (String × Nat)) (hnd : (es.map Prod.fst).Nodup)
    (w : String) (c : Nat) (hmem : (w, c) ∈ es) : lookupD es w = c := by
  induction es with
  | nil => exact absurd hmem (List.not_mem_nil _)
  | cons p t ih =>
    obtain ⟨k, c0⟩ := p
    simp only [List.map_cons, List.nodup_cons] at hnd
    by_cases hk : k = w
    · subst hk
      have hc : c = c0 := by
        rcases List.mem_cons.mp hmem with h | h
        · exact (Prod.ext_iff.mp h).2
        · exact absurd (List.mem_map_of_mem Prod.fst h) hnd.1
      rw [lookupD, List.find?_cons_of_pos _ (by simp)]
      simp [hc]
    · have hmem' : (w, c) ∈ t := by
        rcases List.mem_cons.mp hmem with h | h
        · exact absurd ((Prod.ext_iff.mp h).1).symm hk
        · exact h
      rw [lookupD, List.find?_cons_of_neg _ (by simpa using hk)]
      exact ih hnd.2 hmem'

/-- One step of `count_words`'s `enumerate` loop, on the state
(counts table, first-occurrence table, current index): a new word is
appended to both tables with count 1 and the current index; a seen word
only has its count bumped. -/
def countStep (s : List (String × Nat) × List (String × Nat) × Nat) (w : String) :
    List (String × Nat) × List (String × Nat) × Nat :=
  if (s.1.map Prod.fst).contains w then
    (bumpFreq s.1 w, s.2.1, s.2.2 + 1)
  else
    (s.1 ++ [(w, 1)], s.2.1 ++ [(w, s.2.2)], s.2.2 + 1)

/-- `count_words(words)` from `wordCount.py`: frequency table plus
first-occurrence-index table, single left-to-right pass. -/
def count_words (words : List String) :
    List (String × Nat) × List (String × Nat) :=
  let r := words.foldl countStep ([], [], 0)
  (r.1, r.2.1)

/-- `sort_words(counts, first_index)`:
`items.sort(key=lambda w: (-counts[w], first_index[w]))` — the keys of
`counts`, sorted by the lexicographic order of (negated count,
first-occurrence index). -/
def sort_words (counts first_index : List (String × Nat)) : List String :=
  (counts.map Prod.fst).mergeSort (fun a b =>
    decide (lookupD counts b < lookupD counts a ∨
      (lookupD counts a = lookupD counts b ∧
        lookupD first_index a ≤ lookupD first_index b)))

/-- Invariant of the `count_words` fold: counts agree with `buildFreq`,
the first-index table has the same keys and records `indexOf`, and the
running index is the number of processed words. -/
theorem count_words_fold_spec (ws : List String) :
    (ws.foldl countStep ([], [], 0)).1 = buildFreq ws ∧
    ((ws.foldl countStep ([], [], 0)).2.1.map Prod.fst =
      (buildFreq ws).map Prod.fst) ∧
    (∀ w i, (w, i) ∈ (ws.foldl countStep ([], [], 0)).2.1 ↔
      w ∈ ws ∧ i = ws.indexOf w) ∧
    (ws.foldl countStep ([], [], 0)).2.2 = ws.length := by
  induction ws using List.reverseRecOn with
  | nil => exact ⟨rfl, rfl, by simp, rfl⟩
  | append_singleton ws x ih =>
    obtain ⟨hc, hk, hfi, hidx⟩ := ih
    rw [List.foldl_append, List.foldl_cons, List.foldl_nil]
    rw [countStep, hc, hidx]
    have hcontains : ((buildFreq ws).map Prod.fst).contains x = true ↔ x ∈ ws := by
      rw [List.elem_iff, buildFreq_key_mem]
    by_cases hx : x ∈ ws
    · rw [if_pos (hcontains.mpr hx)]
      refine ⟨?_, ?_, ?_, by simp⟩
      · rw [buildFreq_append]
      · rw [hk, buildFreq_keys_append, if_pos hx]
      · intro w i
        rw [hfi]
        constructor
        · rintro ⟨hw, hi⟩
          exact ⟨List.mem_append_left _ hw,
            by rw [List.indexOf_append_of_mem hw]; exact hi⟩
        · rintro ⟨hw, hi⟩
          have hw' : w ∈ ws := by
            rcases List.mem_append.mp hw with h | h
            · exact h
            · simp only [List.mem_singleton] at h
              exact h ▸ hx
          exact ⟨hw', by rw [List.indexOf_append_of_mem hw'] at hi; exact hi⟩
    · rw [if_neg (fun h => hx (hcontains.mp h))]
      refine ⟨?_, ?_, ?_, by simp⟩
      · rw [buildFreq_append,
          bumpFreq_of_not_key x _ (fun h => hx ((buildFreq_key_mem ws x).mp h))]
      · rw [List.map_append, hk, buildFreq_keys_append, if_neg hx]
        rfl
      · intro w i
        rw [List.mem_append, hfi, List.mem_singleton, Prod.ext_iff]
        constructor
        · rintro (⟨hw, hi⟩ | ⟨hwx, hi⟩)
          · exact ⟨List.mem_append_left _ hw,
              by rw [List.indexOf_append_of_mem hw]; exact hi⟩
          · simp only at hwx hi
            subst hwx
            exact ⟨List.mem_append_right _ (by simp),
              by rw [indexOf_append_self_not_mem ws w hx]; exact hi⟩
        · rintro ⟨hw, hi⟩
          by_cases hwx : w = x
          · subst hwx
            rw [indexOf_append_self_not_mem ws w hx] at hi
            exact Or.inr ⟨rfl, hi⟩
          · have hw' : w ∈ ws := by
              rcases List.mem_append.mp hw with h | h
              · exact h
              · simp only [List.mem_singleton] at h
                exact absurd h hwx
            rw [List.indexOf_append_of_mem hw'] at hi
            exact Or.inl ⟨hw', hi⟩

/-- `List.count` does not depend on which (lawful) equality test is used. -/
theorem lawfulBEq_ofDecEq {α : Type} (d : DecidableEq α) :
    @LawfulBEq α (@instBEqOfDecidableEq α d) where
  eq_of_beq h := of_decide_eq_true h
  rfl := decide_eq_true rfl

theorem count_beq_congr {α : Type} {i1 i2 : BEq α} (l1 : @LawfulBEq α i1)
    (l2 : @LawfulBEq α i2) (a : α) (l : List α) :
    @List.count α i1 a l = @List.count α i2 a l := by
  induction l with
  | nil => rfl
  | cons b t ih =>
    rw [@List.count_cons α i1, @List.count_cons α i2, ih]
    by_cases h : b = a
    · subst h
      rw [show (@BEq.beq α i1 b b) = true from @LawfulBEq.rfl α i1 l1 b,
        show (@BEq.beq α i2 b b) = true from @LawfulBEq.rfl α i2 l2 b]
    · rw [show (@BEq.beq α i1 b a) = false from (@beq_eq_false_iff_ne α i1 l1 b a).mpr h,
        show (@BEq.beq α i2 b a) = false from (@beq_eq_false_iff_ne α i2 l2 b a).mpr h]

/-- C7: `order` (`sort_words` on the tables built by `count_words`) returns
all distinct tokens sorted by descending count and then by ascending
first-occurrence index; the resulting pairwise order is strict (total),
since first-occurrence indices are unique — ties are never broken
lexically. -/
theorem C7_sort_words (ws : List String) :
    (sort_words (count_words ws).1 (count_words ws).2).Perm
      ((count_words ws).1.map Prod.fst) ∧
    ((count_words ws).1.map Prod.fst).Perm ws.dedup ∧
    (sort_words (count_words ws).1 (count_words ws).2).Pairwise
      (fun a b => ws.count b < ws.count a ∨
        (ws.count a = ws.count b ∧ ws.indexOf a < ws.indexOf b)) := by
  obtain ⟨hc, hk, hfi, -⟩ := count_words_fold_spec ws
  have hcw1 : (count_words ws).1 = buildFreq ws := hc
  have hcw2 : (count_words ws).2 = (ws.foldl countStep ([], [], 0)).2.1 := rfl
  obtain ⟨hnd, hiff⟩ := buildFreq_spec ws
  have hlookc : ∀ w ∈ ws, lookupD (count_words ws).1 w = ws.count w := by
    intro w hw
    rw [hcw1]
    refine lookupD_eq _ hnd w _ ((hiff w (ws.count w)).mpr ⟨hw, ?_⟩)
    exact count_beq_congr (lawfulBEq_ofDecEq _) (lawfulBEq_ofDecEq _) w ws
  have hndfi : ((count_words ws).2.map Prod.fst).Nodup := by
    rw [hcw2, hk]
    exact hnd
  have hlookfi : ∀ w ∈ ws, lookupD (count_words ws).2 w = ws.indexOf w := by
    intro w hw
    refine lookupD_eq _ hndfi w _ ?_
    rw [hcw2]
    exact (hfi w (ws.indexOf w)).mpr ⟨hw, rfl⟩
  have hkeymem : ∀ a, a ∈ (count_words ws).1.map Prod.fst ↔ a ∈ ws := by
    intro a
    rw [hcw1]
    exact buildFreq_key_mem ws a
  have hsw : sort_words (count_words ws).1 (count_words ws).2 =
      ((count_words ws).1.map Prod.fst).mergeSort (fun a b =>
        decide (lookupD (count_words ws).1 b < lookupD (count_words ws).1 a ∨
          (lookupD (count_words ws).1 a = lookupD (count_words ws).1 b ∧
            lookupD (count_words ws).2 a ≤ lookupD (count_words ws).2 b))) := rfl
  have hperm1 : (sort_words (count_words ws).1 (count_words ws).2).Perm
      ((count_words ws).1.map Prod.fst) := by
    rw [hsw]
    exact List.mergeSort_perm _ _
  refine ⟨hperm1, ?_, ?_⟩
  · rw [hcw1]
    refine (List.perm_ext_iff_of_nodup hnd (List.nodup_dedup ws)).mpr ?_
    intro a
    rw [buildFreq_key_mem, List.mem_dedup]
  · have hndkeys : ((count_words ws).1.map Prod.fst).Nodup := by
      rw [hcw1]
      exact hnd
    have hndout : (sort_words (count_words ws).1 (count_words ws).2).Nodup :=
      hperm1.nodup_iff.mpr hndkeys
    have hsorted : (sort_words (count_words ws).1 (count_words ws).2).Pairwise
        (fun a b =>
          (decide (lookupD (count_words ws).1 b < lookupD (count_words ws).1 a ∨
            (lookupD (count_words ws).1 a = lookupD (count_words ws).1 b ∧
              lookupD (count_words ws).2 a ≤ lookupD (count_words ws).2 b))) = true) := by
      rw [hsw]
      refine List.sorted_mergeSort ?_ ?_ _
      · intro a b c hab hbc
        rw [decide_eq_true_iff] at hab hbc ⊢
        omega
      · intro a b
        rw [Bool.or_eq_true, decide_eq_true_iff, decide_eq_true_iff]
        omega
    refine List.Pairwise.imp_of_mem ?_ (hsorted.and hndout)
    intro a b ha hb hab
    obtain ⟨hle, hne⟩ := hab
    have haws : a ∈ ws := (hkeymem a).mp (hperm1.mem_iff.mp ha)
    have hbws : b ∈ ws := (hkeymem b).mp (hperm1.mem_iff.mp hb)
    rw [decide_eq_true_iff, hlookc a haws, hlookc b hbws, hlookfi a haws,
      hlookfi b hbws] at hle
    rcases hle with hle | ⟨hceq, hfile⟩
    · exact Or.inl hle
    · refine Or.inr ⟨hceq, ?_⟩
      have hfine : ws.indexOf a ≠ ws.indexOf b := by
        intro heq
        apply hne
        have h1 := List.indexOf_get (List.indexOf_lt_length.mpr haws)
        have h2 := List.indexOf_get (List.indexOf_lt_length.mpr hbws)
        rw [← h1, ← h2]
        exact congrArg ws.get (Fin.ext heq)
      omega

/-! ## Program entry points

Each `main(argv)` is modelled as (exit code, whether the results file is
written); the emitted text itself is the external formatter/emitter
boundary of spec §1/§6, outside the algorithmic core. -/

/-- `main` of `computeStatistics.py`: usage error exits 2 writing nothing;
zero valid numbers writes the "No valid numbers" report and exits 1;
otherwise the statistics report is written and the exit code is 0. -/
def statsMain (argv : List String) (file : Option (List String)) : Nat × Bool :=
  if argv.length ≠ 2 then (2, false)
  else
    let numbers := (parse_numbers (argv.getD 1 "") file).1
    if numbers.isEmpty then (1, true)
    else (0, true)

/-- `main` of `convertNumbers.py`: usage error exits 2 writing nothing;
otherwise the table is always written and the exit code is always 0 —
there is no empty-dataset check. -/
def convertMain (argv : List String) (file : Option (List String)) : Nat × Bool :=
  if argv.length ≠ 2 then (2, false)
  else
    let _numbers := (parse_integers (argv.getD 1 "") file).1
    (0, true)

/-- `main` of `wordCount.py`: usage error exits 2 writing nothing;
otherwise the table (or a `(no words found)` row) is always written and
the exit code is always 0. -/
def wordMain (argv : List String) (file : Option (List String)) : Nat × Bool :=
  if argv.length ≠ 2 then (2, false)
  else
    let _words := (parse_words (argv.getD 1 "") file).1
    (0, true)

/-- C1 counterexample: on a one-line file `"bad"` the integer tool parses
zero valid integers yet exits 0 (and still writes the results file), and
likewise the word tool on a blank-line file — both contradict "exits with
code 1 when no valid data could be computed". -/
theorem C1_counterexample :
    (parse_integers "f" (some ["bad"])).1 = [] ∧
    convertMain ["prog", "f"] (some ["bad"]) = (0, true) ∧
    (parse_words "f" (some ["!!!", ""])).1 = [] ∧
    wordMain ["prog", "f"] (some ["!!!", ""]) = (0, true) := by
  exact ⟨by decide, by decide, by decide, by decide⟩

/-- C1 (amended): every tool exits 2 on wrong argument count, writing
nothing; with exactly one file argument the statistics tool exits 1 when
zero valid numbers were parsed and 0 otherwise, while the converter and
word-count tools always exit 0 and always write their results file, even
when no valid data was parsed. -/
theorem C1_exit_codes (argv : List String) (file : Option (List String)) :
    (argv.length ≠ 2 →
      statsMain argv file = (2, false) ∧ convertMain argv file = (2, false) ∧
      wordMain argv file = (2, false)) ∧
    (argv.length = 2 →
      statsMain argv file =
        (if (parse_numbers (argv.getD 1 "") file).1.isEmpty then 1 else 0, true) ∧
      convertMain argv file = (0, true) ∧
      wordMain argv file = (0, true)) := by
  constructor
  · intro h
    rw [statsMain, if_pos h, convertMain, if_pos h, wordMain, if_pos h]
    exact ⟨rfl, rfl, rfl⟩
  · intro h
    have h2 : ¬ argv.length ≠ 2 := by omega
    rw [statsMain, if_neg h2, convertMain, if_neg h2, wordMain, if_neg h2]
    refine ⟨?_, rfl, rfl⟩
    by_cases he : (parse_numbers (argv.getD 1 "") file).1.isEmpty
    · rw [if_pos he, if_pos he]
    · rw [if_neg he, if_neg he]

/-- Witness for C1 at concrete invocations: wrong arity, an all-invalid
file, and a valid file. -/
theorem C1_exit_codes_witness :
    statsMain ["prog"] none = (2, false) ∧
    statsMain ["prog", "f"] (some ["bad"]) = (1, true) ∧
    statsMain ["prog", "f"] (some ["3"]) = (0, true) ∧
    convertMain ["prog", "f"] (some ["bad"]) = (0, true) ∧
    wordMain ["prog", "f"] (some ["bad"]) = (0, true) := by
  refine ⟨((C1_exit_codes ["prog"] none).1 (by decide)).1, ?_, ?_, ?_, ?_⟩
  · have h := ((C1_exit_codes ["prog", "f"] (some ["bad"])).2 (by decide)).1
    rw [h]
    decide
  · have h := ((C1_exit_codes ["prog", "f"] (some ["3"])).2 (by decide)).1
    rw [h]
    decide
  · exact ((C1_exit_codes ["prog", "f"] (some ["bad"])).2 (by decide)).2.1
  · exact ((C1_exit_codes ["prog", "f"] (some ["bad"])).2 (by decide)).2.2

end A42
